import Mathlib

set_option maxRecDepth 8000

namespace LlamaLexModel

/-- Model of `struct LlamaLexConfig` (llamalex.cpp, lines 96-108) with its
default member values. -/
structure LlamaLexConfig where
  vocab_size : Nat := 50000
  embedding_dim : Nat := 768
  num_layers : Nat := 12
  num_heads : Nat := 12
  ff_dim : Nat := 3072
  max_seq_length : Nat := 2048
  use_legal_vocab : Bool := true
  enable_case_law_mode : Bool := false
  enable_statute_mode : Bool := false

/-- Model of `LegalTokenizer::get_token_id` (lines 82-85):
`std::hash<std::string>{}(word) % vocab_size_`.  `std::hash` is
implementation-defined, so the hash itself is a parameter of the model;
the source's modular reduction is kept. -/
def get_token_id (hash : List Char → Nat) (vocab_size : Nat) (word : List Char) : Nat :=
  hash word % vocab_size

/-- The whitespace test of the tokenize loop (line 44):
`c == ' ' || c == '\n' || c == '\t'`. -/
def isWsChar (c : Char) : Bool :=
  c = ' ' || c = '\n' || c = '\t'

/-- The character loop of `LegalTokenizer::tokenize` (lines 42-56): scan the
text, accumulating the current word; on whitespace emit the pending word's
token id (if the word is nonempty) and clear it; after the loop emit the
final pending word. -/
def tokenizeWords (hash : List Char → Nat) (vocab_size : Nat) :
    List Char → List Char → List Nat
  | [], word => if word = [] then [] else [get_token_id hash vocab_size word]
  | c :: cs, word =>
    if isWsChar c then
      (if word = [] then [] else [get_token_id hash vocab_size word]) ++
        tokenizeWords hash vocab_size cs []
    else
      tokenizeWords hash vocab_size cs (word ++ [c])

/-- Model of `LegalTokenizer::tokenize` (lines 36-60): push BOS token 1,
emit the word token ids, push EOS token 2. -/
def tokenize (hash : List Char → Nat) (vocab_size : Nat) (text : List Char) : List Nat :=
  1 :: (tokenizeWords hash vocab_size text [] ++ [2])

/-- Fuel-driven decimal rendering, most significant digit first: the model
of `std::to_string` on a nonnegative integer.  Fuel `n + 1` always
suffices because the recursive argument `n / 10` strictly decreases. -/
def natCharsGo : Nat → Nat → List Char
  | 0, _ => []
  | fuel + 1, n =>
    if n < 10 then [Nat.digitChar n]
    else natCharsGo fuel (n / 10) ++ [Nat.digitChar (n % 10)]

/-- Decimal digit string of `n`, the model of `std::to_string(n)`. -/
def natChars (n : Nat) : List Char :=
  natCharsGo (n + 1) n

/-- Model of `LegalTokenizer::get_token_str` (lines 87-90):
`"<token_" + std::to_string(token_id) + ">"`. -/
def get_token_str (token_id : Nat) : List Char :=
  "<token_".data ++ natChars token_id ++ ">".data

/-- The loop of `LegalTokenizer::detokenize` (lines 64-70): skip token ids 1
and 2; otherwise append a separating space when the accumulated text is
nonempty, then append the token's string form. -/
def detokLoop : List Nat → List Char → List Char
  | [], text => text
  | t :: ts, text =>
    if t = 1 || t = 2 then detokLoop ts text
    else detokLoop ts (text ++ (if text = [] then [] else [' ']) ++ get_token_str t)

/-- Model of `LegalTokenizer::detokenize` (lines 62-72). -/
def detokenize (tokens : List Nat) : List Char :=
  detokLoop tokens []

/-- The string forms of the non-sentinel tokens of a sequence: drop every
token id equal to 1 or 2, render the rest. -/
def wordsOf (tokens : List Nat) : List (List Char) :=
  (tokens.filter (fun t => !(t = 1 || t = 2))).map get_token_str

/-- Join a list of words with exactly one space between consecutive words
and no leading or trailing space. -/
def joinWords : List (List Char) → List Char
  | [] => []
  | [w] => w
  | w :: ws => w ++ ' ' :: joinWords ws

/-- One space before each word: the shape `joinWords` takes after its first
word. -/
def tailJoin (ws : List (List Char)) : List Char :=
  ws.flatMap (fun w => ' ' :: w)

/-- Model of `LlamaLex::get_token_embedding` (lines 234-241).  The body
fills a vector of `embedding_dim` entries, each from a fresh call to the
hidden-state generator `rand()`.  The generator is modelled as a stream of
raw values indexed by a call counter `ctr` that the hidden state threads
forward; the deterministic scaling `0.01f * (r / RAND_MAX)` is omitted, so
each entry is the raw draw.  Note the source ignores `token_id` entirely. -/
def get_token_embedding (cfg : LlamaLexConfig) (randStream : Nat → Nat)
    (ctr : Nat) (token_id : Nat) : List Nat × Nat :=
  ((List.range cfg.embedding_dim).map (fun i => randStream (ctr + i)),
    ctr + cfg.embedding_dim)

/-- The embedding-accumulation loop of `LlamaLex::encode` (lines 165-170):
concatenate the per-token embedding vectors, threading the hidden
generator state. -/
def encodeLoop (cfg : LlamaLexConfig) (randStream : Nat → Nat) :
    List Nat → Nat → List Nat
  | [], _ => []
  | t :: ts, ctr =>
    (get_token_embedding cfg randStream ctr t).1 ++
      encodeLoop cfg randStream ts (get_token_embedding cfg randStream ctr t).2

/-- Model of the engine class `LlamaLex` (lines 144-242): it owns one
config (the tokenizer it owns shares the config's vocab_size). -/
structure LlamaLex where
  config_ : LlamaLexConfig

/-- Model of `LlamaLex::encode` (lines 160-173): tokenize, then look up and
concatenate each token's embedding. -/
def LlamaLex.encode (self : LlamaLex) (hash : List Char → Nat)
    (randStream : Nat → Nat) (ctr : Nat) (text : List Char) : List Nat :=
  encodeLoop self.config_ randStream
    (tokenize hash self.config_.vocab_size text) ctr

/-- The generation loop of `LlamaLex::generate` (lines 185-192): up to
`fuel` iterations; each draws `rand() % vocab_size` (step `i` of the rand
stream), appends it, and stops right after appending a token equal to the
EOS id 2. -/
def genLoop (vocab_size : Nat) (randStream : Nat → Nat) :
    Nat → Nat → List Nat
  | 0, _ => []
  | fuel + 1, i =>
    (randStream i % vocab_size) ::
      (if randStream i % vocab_size = 2 then []
       else genLoop vocab_size randStream fuel (i + 1))

/-- The token sequence held by `LlamaLex::generate` when its loop exits:
the tokenized prompt followed by the appended sampled tokens. -/
def generateTokens (hash : List Char → Nat) (vocab_size : Nat)
    (randStream : Nat → Nat) (prompt : List Char) (max_length : Nat) : List Nat :=
  tokenize hash vocab_size prompt ++ genLoop vocab_size randStream max_length 0

/-- Model of `LlamaLex::generate` (lines 178-196): detokenize the final
token sequence. -/
def LlamaLex.generate (self : LlamaLex) (hash : List Char → Nat)
    (randStream : Nat → Nat) (prompt : List Char) (max_length : Nat) : List Char :=
  detokenize (generateTokens hash self.config_.vocab_size randStream prompt max_length)

/-- The internal failures that C++ surfaces as exceptions; allocation
failure (`std::bad_alloc` from `new`) is the one the boundary can hit. -/
inductive CppException where
  | badAlloc

/-- Model of a C++ `new LlamaLex(config)` expression: produces the engine,
or throws `std::bad_alloc` when allocation fails (the `allocOk` oracle). -/
def cppNew (allocOk : Bool) (cfg : LlamaLexConfig) : Except CppException LlamaLex :=
  if allocOk then Except.ok ⟨cfg⟩ else Except.error CppException.badAlloc

/-- Model of `llamalex_create` (lines 249-256): build the config from the
three arguments (every other field keeps its default, including
`num_heads = 12`), then `return new LlamaLex(config)` — there is no
try/catch, so a thrown exception propagates to the caller as the
`Except.error` result. -/
def llamalex_create (allocOk : Bool) (vocab_size embedding_dim num_layers : Nat) :
    Except CppException LlamaLex :=
  cppNew allocOk
    { vocab_size := vocab_size, embedding_dim := embedding_dim, num_layers := num_layers }

/-- Model of `llamalex_encode` (lines 264-275): run `encode`, write
`*out_size = embeddings.size()`, and return a newly allocated copy of the
embedding buffer.  The result is (buffer, out_size). -/
def llamalex_encode (engine : LlamaLex) (hash : List Char → Nat)
    (randStream : Nat → Nat) (ctr : Nat) (text : List Char) : List Nat × Nat :=
  (engine.encode hash randStream ctr text,
    (engine.encode hash randStream ctr text).length)

/-- Model of `MultiHeadAttention` (lines 113-139): the constructor stores
the dimensions and computes `head_dim_ = embedding_dim / num_heads`
(integer division, no divisibility check, no failure path). -/
structure MultiHeadAttention where
  embedding_dim_ : Nat
  num_heads_ : Nat
  head_dim_ : Nat

/-- Model of the `MultiHeadAttention` constructor (lines 115-121). -/
def MultiHeadAttention.make (embedding_dim num_heads : Nat) : MultiHeadAttention :=
  ⟨embedding_dim, num_heads, embedding_dim / num_heads⟩

/-- Model of `MultiHeadAttention::forward` (lines 124-128): the source
returns its input unchanged. -/
def MultiHeadAttention.forward (self : MultiHeadAttention)
    (input : List Float) : List Float :=
  input

/-- Modelled from the spec: a linear projection to `rows` outputs, each
output the weighted sum of the input vector's entries by one row of the
weight matrix `W`. -/
def linProj (rows : Nat) (W : Nat → Nat → Float) (v : List Float) : List Float :=
  (List.range rows).map (fun j =>
    (List.range v.length).foldl (fun acc i => acc + W j i * v.getD i 0) 0)

/-- Modelled from the spec: the FeedForwardBlock (absent from the source)
applies a two-layer projection `embedding_dim → ff_dim → embedding_dim`
with a nonlinearity between; the spec does not fix the nonlinearity, so
it is a parameter. -/
def feedForward (embedding_dim ff_dim : Nat) (nonlin : Float → Float)
    (W1 W2 : Nat → Nat → Float) (v : List Float) : List Float :=
  linProj embedding_dim W2 ((linProj ff_dim W1 v).map nonlin)

/-- Pointwise vector sum, the residual add `input + block output` of the
spec's layer description. -/
def addVec (a b : List Float) : List Float :=
  List.zipWith (fun x y => x + y) a b

/-- Modelled from the spec: one transformer layer pair — the attention
block (the source's `MultiHeadAttention::forward`, applied at every
position) with its output residually added to its input, then the
FeedForwardBlock with its output residually added to its input. -/
def layerForward (cfg : LlamaLexConfig) (mha : MultiHeadAttention)
    (nonlin : Float → Float) (W1 W2 : Nat → Nat → Float)
    (seq : List (List Float)) : List (List Float) :=
  List.zipWith addVec (List.zipWith addVec seq (seq.map mha.forward))
    ((List.zipWith addVec seq (seq.map mha.forward)).map
      (feedForward cfg.embedding_dim cfg.ff_dim nonlin W1 W2))

/-- Modelled from the spec: the TransformerStack (absent from the source,
which only defines the attention block) applies `num_layers`
(AttentionBlock, FeedForwardBlock) layer pairs in sequence, each block
followed by a residual add; `weights` gives each layer its own pair of
feed-forward weight matrices (per-layer owned weight tensors). -/
def TransformerStack.forward (cfg : LlamaLexConfig) (mha : MultiHeadAttention)
    (nonlin : Float → Float)
    (weights : Nat → (Nat → Nat → Float) × (Nat → Nat → Float)) :
    Nat → List (List Float) → List (List Float)
  | 0, seq => seq
  | n + 1, seq =>
    TransformerStack.forward cfg mha nonlin weights n
      (layerForward cfg mha nonlin (weights n).1 (weights n).2 seq)

/-- A sample config reachable through `llamalex_create 50000 2 12`:
embedding width 2, every other field at its default. -/
def cfgSmall : LlamaLexConfig :=
  { embedding_dim := 2 }

/-- The config `llamalex_create 50000 100 12` builds: num_heads stays at
its default value 12, which does not divide the embedding width 100. -/
def cfg100 : LlamaLexConfig :=
  { vocab_size := 50000, embedding_dim := 100, num_layers := 12 }

lemma genLoop_length_le (vocab_size : Nat) (randStream : Nat → Nat) :
    ∀ fuel i, (genLoop vocab_size randStream fuel i).length ≤ fuel := by
  intro fuel
  induction fuel with
  | zero => intro i; simp [genLoop]
  | succ n ih =>
    intro i
    by_cases h : randStream i % vocab_size = 2
    · simp [genLoop, h]
    · simp only [genLoop, h, if_neg, if_false, List.length_cons]
      exact Nat.succ_le_succ (ih (i + 1))

lemma genLoop_stop (vocab_size : Nat) (randStream : Nat → Nat) :
    ∀ fuel i j, (genLoop vocab_size randStream fuel i)[j]? = some 2 →
      (genLoop vocab_size randStream fuel i).length = j + 1 := by
  intro fuel
  induction fuel with
  | zero => intro i j h; simp [genLoop] at h
  | succ n ih =>
    intro i j h
    by_cases h2 : randStream i % vocab_size = 2
    · simp only [genLoop, h2, if_pos] at h ⊢
      match j, h with
      | 0, _ => simp
      | j + 1, h => simp at h
    · simp only [genLoop, h2, if_neg, if_false] at h ⊢
      match j, h with
      | 0, h => simp at h; exact absurd h h2
      | j + 1, h =>
        simp only [List.getElem?_cons_succ] at h
        simp [ih (i + 1) j h]

lemma get_token_embedding_length (cfg : LlamaLexConfig) (randStream : Nat → Nat)
    (ctr token_id : Nat) :
    (get_token_embedding cfg randStream ctr token_id).1.length = cfg.embedding_dim := by
  simp [get_token_embedding]

lemma encodeLoop_length (cfg : LlamaLexConfig) (randStream : Nat → Nat) :
    ∀ (ts : List Nat) (ctr : Nat),
      (encodeLoop cfg randStream ts ctr).length = ts.length * cfg.embedding_dim := by
  intro ts
  induction ts with
  | nil => intro ctr; simp [encodeLoop]
  | cons t ts ih =>
    intro ctr
    simp [encodeLoop, get_token_embedding_length, ih, Nat.succ_mul, Nat.add_comm]

lemma mha_forward_eq (mha : MultiHeadAttention) (input : List Float) :
    mha.forward input = input := rfl

lemma linProj_length (rows : Nat) (W : Nat → Nat → Float) (v : List Float) :
    (linProj rows W v).length = rows := by
  simp [linProj]

lemma feedForward_length (d f : Nat) (nonlin : Float → Float)
    (W1 W2 : Nat → Nat → Float) (v : List Float) :
    (feedForward d f nonlin W1 W2 v).length = d := by
  simp [feedForward, linProj_length]

lemma addVec_length (a b : List Float) :
    (addVec a b).length = min a.length b.length := by
  simp [addVec]

lemma layerForward_nil (cfg : LlamaLexConfig) (mha : MultiHeadAttention)
    (nonlin : Float → Float) (W1 W2 : Nat → Nat → Float) :
    layerForward cfg mha nonlin W1 W2 [] = [] := rfl

lemma layerForward_cons (cfg : LlamaLexConfig) (mha : MultiHeadAttention)
    (nonlin : Float → Float) (W1 W2 : Nat → Nat → Float)
    (w : List Float) (ws : List (List Float)) :
    layerForward cfg mha nonlin W1 W2 (w :: ws) =
      addVec (addVec w (mha.forward w))
        (feedForward cfg.embedding_dim cfg.ff_dim nonlin W1 W2
          (addVec w (mha.forward w))) ::
      layerForward cfg mha nonlin W1 W2 ws := rfl

lemma layerForward_length (cfg : LlamaLexConfig) (mha : MultiHeadAttention)
    (nonlin : Float → Float) (W1 W2 : Nat → Nat → Float) :
    ∀ seq : List (List Float),
      (layerForward cfg mha nonlin W1 W2 seq).length = seq.length := by
  intro seq
  induction seq with
  | nil => rfl
  | cons w ws ih => rw [layerForward_cons, List.length_cons, List.length_cons, ih]

lemma layerForward_widths (cfg : LlamaLexConfig) (mha : MultiHeadAttention)
    (nonlin : Float → Float) (W1 W2 : Nat → Nat → Float) :
    ∀ seq : List (List Float),
      (∀ v ∈ seq, v.length = cfg.embedding_dim) →
      ∀ v ∈ layerForward cfg mha nonlin W1 W2 seq,
        v.length = cfg.embedding_dim := by
  intro seq
  induction seq with
  | nil => intro _ v hv; rw [layerForward_nil] at hv; exact absurd hv (List.not_mem_nil v)
  | cons w ws ih =>
    intro hall v hv
    rw [layerForward_cons] at hv
    rcases List.mem_cons.mp hv with hv | hv
    · have hw : w.length = cfg.embedding_dim := hall w (List.mem_cons_self _ _)
      have hres : (addVec w (mha.forward w)).length = cfg.embedding_dim := by
        rw [mha_forward_eq, addVec_length, Nat.min_self, hw]
      rw [hv, addVec_length, hres, feedForward_length, Nat.min_self]
    · exact ih (fun u hu => hall u (List.mem_cons_of_mem w hu)) v hv

lemma stack_forward_shape (cfg : LlamaLexConfig) (mha : MultiHeadAttention)
    (nonlin : Float → Float)
    (weights : Nat → (Nat → Nat → Float) × (Nat → Nat → Float)) :
    ∀ (n : Nat) (seq : List (List Float)),
      (∀ v ∈ seq, v.length = cfg.embedding_dim) →
      (TransformerStack.forward cfg mha nonlin weights n seq).length = seq.length ∧
      ∀ v ∈ TransformerStack.forward cfg mha nonlin weights n seq,
        v.length = cfg.embedding_dim := by
  intro n
  induction n with
  | zero => intro seq h; exact ⟨rfl, h⟩
  | succ n ih =>
    intro seq h
    have hw := layerForward_widths cfg mha nonlin (weights n).1 (weights n).2 seq h
    obtain ⟨hlen, hwid⟩ := ih (layerForward cfg mha nonlin (weights n).1 (weights n).2 seq) hw
    constructor
    · show (TransformerStack.forward cfg mha nonlin weights n
        (layerForward cfg mha nonlin (weights n).1 (weights n).2 seq)).length = seq.length
      rw [hlen, layerForward_length]
    · exact hwid

/-- Claim C2: every tokenize output is non-empty, starts with the BEGIN
token (id 1) and ends with the END token (id 2); the empty input yields
exactly the two-token sequence [1, 2]. -/
theorem tokenize_sentinel_structure :
    ∀ (hash : List Char → Nat) (vocab_size : Nat) (text : List Char),
      2 ≤ (tokenize hash vocab_size text).length ∧
      (tokenize hash vocab_size text).head? = some 1 ∧
      (tokenize hash vocab_size text).getLast? = some 2 ∧
      tokenize hash vocab_size [] = [1, 2] := by
  intro hash vocab_size text
  refine ⟨?_, rfl, ?_, rfl⟩
  · simp [tokenize]
  · show (1 :: (tokenizeWords hash vocab_size text [] ++ [2])).getLast? = some 2
    rw [← List.cons_append]
    exact List.getLast?_concat _

/-- Claim C1: the generation loop of `generate` always terminates (it is a
total function of its fuel), appends at most `max_length` tokens after the
tokenized prompt, and an appended token equal to the END id 2 is always
the last appended token (appending stops immediately). -/
theorem generate_budget_and_early_stop :
    ∀ (hash : List Char → Nat) (vocab_size : Nat) (randStream : Nat → Nat)
      (prompt : List Char) (max_length : Nat),
      (genLoop vocab_size randStream max_length 0).length ≤ max_length ∧
      (generateTokens hash vocab_size randStream prompt max_length).length ≤
        (tokenize hash vocab_size prompt).length + max_length ∧
      (∀ j, (genLoop vocab_size randStream max_length 0)[j]? = some 2 →
        (genLoop vocab_size randStream max_length 0).length = j + 1) := by
  intro hash vocab_size randStream prompt max_length
  refine ⟨genLoop_length_le _ _ _ _, ?_, fun j h => genLoop_stop _ _ _ _ j h⟩
  show (tokenize hash vocab_size prompt ++ genLoop vocab_size randStream max_length 0).length ≤ _
  rw [List.length_append]
  exact Nat.add_le_add_left (genLoop_length_le _ _ _ _) _

/-- Concrete run of `generate_budget_and_early_stop`: with a rand stream
that immediately draws the END token, exactly one token is appended. -/
theorem generate_budget_and_early_stop_witness :
    (genLoop 50000 (fun _ => 2) 3 0).length = 0 + 1 :=
  (generate_budget_and_early_stop (fun _ => 0) 50000 (fun _ => 2) [] 3).2.2 0 (by decide)

/-- Claim C3 (failure demonstration): `get_token_embedding` draws fresh
values from the hidden rand state on every call, so two lookups of the
same token id in one session return different vectors: with the identity
rand stream and embedding width 2, the first lookup of token 5 returns
[0, 1] and the immediately following lookup of the same token returns
[2, 3]. -/
theorem token_embedding_not_deterministic :
    (get_token_embedding cfgSmall (fun n => n) 0 5).1 = [0, 1] ∧
    (get_token_embedding cfgSmall (fun n => n)
        (get_token_embedding cfgSmall (fun n => n) 0 5).2 5).1 = [2, 3] ∧
    decide ((get_token_embedding cfgSmall (fun n => n) 0 5).1 =
      (get_token_embedding cfgSmall (fun n => n)
        (get_token_embedding cfgSmall (fun n => n) 0 5).2 5).1) = false := by
  refine ⟨?_, ?_, ?_⟩ <;> decide

/-- Claim C5 (failure demonstration): with embedding_dim = 100 and
num_heads = 7 (which does not divide 100, remainder 2), the attention
constructor succeeds anyway with the truncated head width 100 / 7 = 14,
and `llamalex_create` returns a live engine (config num_heads keeps its
default 12, which does not divide 100 either, remainder 4): no
InvalidConfig failure path exists in the source. -/
theorem indivisible_heads_construction_succeeds :
    (MultiHeadAttention.make 100 7).head_dim_ = 14 ∧
    100 % 7 = 2 ∧
    llamalex_create true 50000 100 12 = Except.ok ⟨cfg100⟩ ∧
    cfg100.embedding_dim % cfg100.num_heads = 4 :=
  ⟨rfl, rfl, rfl, rfl⟩

lemma tokenizeWords_rep (hash : List Char → Nat) (v : Nat) :
    ∀ n : Nat,
      tokenizeWords hash v ((List.replicate n ([' ', 'a'] : List Char)).flatten) ['a'] =
        List.replicate (n + 1) (get_token_id hash v ['a']) := by
  intro n
  induction n with
  | zero => simp [tokenizeWords]
  | succ n ih =>
    have hs : isWsChar ' ' = true := by decide
    have ha : isWsChar 'a' = false := by decide
    rw [List.replicate_succ, List.flatten_cons]
    show tokenizeWords hash v
      (' ' :: 'a' :: (List.replicate n ([' ', 'a'] : List Char)).flatten) ['a'] = _
    simp only [tokenizeWords, hs, ha, if_true, if_false, Bool.false_eq_true,
      List.nil_append, reduceCtorEq, ite_false, List.cons_ne_nil]
    rw [ih]
    simp [List.replicate_succ, List.singleton_append]

/-- Length of the tokenize output on n+1 copies of the block " a": the
BOS token, n+1 word tokens, the EOS token. -/
lemma tokenize_rep_length (hash : List Char → Nat) (v : Nat) :
    ∀ n : Nat,
      (tokenize hash v ((List.replicate (n + 1) ([' ', 'a'] : List Char)).flatten)).length =
        n + 3 := by
  intro n
  have hs : isWsChar ' ' = true := by decide
  have ha : isWsChar 'a' = false := by decide
  rw [tokenize, List.replicate_succ, List.flatten_cons]
  show (1 :: (tokenizeWords hash v
    (' ' :: 'a' :: (List.replicate n ([' ', 'a'] : List Char)).flatten) [] ++ [2])).length = _
  simp only [tokenizeWords, hs, ha, if_true, if_false, Bool.false_eq_true,
    List.nil_append, reduceCtorEq, ite_true, ite_false]
  rw [tokenizeWords_rep]
  simp [List.length_replicate]

/-- Claim C4 (failure demonstration): with the default configuration
(max_seq_length = 2048) the input of 2047 one-letter words tokenizes to a
2049-token sequence, which exceeds max_seq_length, and `tokenize` is a
total function with no failure path, so no SequenceTooLong condition is
signalled. -/
theorem tokenize_exceeds_max_seq_length :
    (tokenize (fun _ => 0) 50000
        ((List.replicate 2047 ([' ', 'a'] : List Char)).flatten)).length = 2049 ∧
    ({} : LlamaLexConfig).max_seq_length = 2048 ∧
    ({} : LlamaLexConfig).max_seq_length <
      (tokenize (fun _ => 0) 50000
        ((List.replicate 2047 ([' ', 'a'] : List Char)).flatten)).length := by
  have h := tokenize_rep_length (fun _ => 0) 50000 2046
  norm_num at h
  exact ⟨h, rfl, by rw [h]; decide⟩

/-- Claim C6: the boundary encode entry point writes an out_size equal to
the tokenized sequence length times the embedding width, and the returned
buffer holds exactly out_size elements. -/
theorem encode_out_size_exact :
    ∀ (engine : LlamaLex) (hash : List Char → Nat) (randStream : Nat → Nat)
      (ctr : Nat) (text : List Char),
      (llamalex_encode engine hash randStream ctr text).2 =
        (tokenize hash engine.config_.vocab_size text).length *
          engine.config_.embedding_dim ∧
      (llamalex_encode engine hash randStream ctr text).1.length =
        (llamalex_encode engine hash randStream ctr text).2 := by
  intro engine hash randStream ctr text
  constructor
  · show (engine.encode hash randStream ctr text).length = _
    rw [LlamaLex.encode, encodeLoop_length]
  · rfl

/-- Claim C8 (failure demonstration): `llamalex_create` contains no
try/catch, so when the engine allocation fails the `std::bad_alloc`
exception propagates across the foreign boundary as an error instead of
being converted into a null sentinel return. -/
theorem create_propagates_alloc_failure :
    llamalex_create false 50000 768 12 = Except.error CppException.badAlloc :=
  rfl

/-- Claim C9: the source's per-layer attention forward preserves vector
length, and the spec-modelled TransformerStack — `num_layers` pairs of
the attention block and the FeedForwardBlock, each block followed by a
residual add — maps any sequence of `embedding_dim`-wide vectors to a
sequence of the same length whose vectors are all still
`embedding_dim`-wide, for every config, nonlinearity, and per-layer
weights. -/
theorem forward_shape_preserving :
    ∀ (mha : MultiHeadAttention) (input : List Float),
      (mha.forward input).length = input.length ∧
      ∀ (cfg : LlamaLexConfig) (nonlin : Float → Float)
        (weights : Nat → (Nat → Nat → Float) × (Nat → Nat → Float))
        (num_layers : Nat) (seq : List (List Float)),
        (∀ v ∈ seq, v.length = cfg.embedding_dim) →
        (TransformerStack.forward cfg mha nonlin weights num_layers seq).length =
          seq.length ∧
        ∀ v ∈ TransformerStack.forward cfg mha nonlin weights num_layers seq,
          v.length = cfg.embedding_dim := by
  intro mha input
  refine ⟨by rw [mha_forward_eq], ?_⟩
  intro cfg nonlin weights num_layers seq h
  exact stack_forward_shape cfg mha nonlin weights num_layers seq h

/-- Concrete run of `forward_shape_preserving`: a three-layer stack on one
width-2 vector (config `cfgSmall`, zero weights, identity nonlinearity)
returns a one-element sequence. -/
theorem forward_shape_preserving_witness :
    (TransformerStack.forward cfgSmall (MultiHeadAttention.make 2 1) (fun x => x)
        (fun _ => (fun _ _ => 0, fun _ _ => 0)) 3 [[1, 2]]).length = 1 :=
  ((forward_shape_preserving (MultiHeadAttention.make 2 1) []).2 cfgSmall
      (fun x => x) (fun _ => (fun _ _ => 0, fun _ _ => 0)) 3 [[1, 2]]
      (by intro v hv; rw [List.mem_singleton] at hv; subst hv; rfl)).1

/-- The list `s` is an initial segment of `l`. -/
def IsStart (s l : List Char) : Prop :=
  ∃ r, l = s ++ r

/-- The list `s` occurs contiguously somewhere inside `l`. -/
def Occurs (s l : List Char) : Prop :=
  ∃ a b, l = a ++ (s ++ b)

/-- Executable test: does `s` begin `l`? -/
def beginsWith : List Char → List Char → Bool
  | [], _ => true
  | _ :: _, [] => false
  | c :: s, d :: l => c = d && beginsWith s l

/-- Executable substring test: does `s` occur contiguously inside `l`? -/
def containsSub (s : List Char) : List Char → Bool
  | [] => s.isEmpty
  | c :: t => beginsWith s (c :: t) || containsSub s t

lemma beginsWith_iff : ∀ s l : List Char, beginsWith s l = true ↔ IsStart s l := by
  intro s
  induction s with
  | nil => intro l; simp [beginsWith, IsStart]
  | cons c s ih =>
    intro l
    cases l with
    | nil =>
      simp only [beginsWith, IsStart]
      constructor
      · intro h; exact absurd h (by simp)
      · rintro ⟨r, hr⟩; exact absurd hr (by simp)
    | cons d t =>
      simp only [beginsWith, Bool.and_eq_true, decide_eq_true_eq, ih, IsStart]
      constructor
      · rintro ⟨rfl, r, rfl⟩; exact ⟨r, rfl⟩
      · rintro ⟨r, hr⟩
        injection hr with h1 h2
        exact ⟨h1.symm, r, h2⟩

lemma containsSub_iff : ∀ (s l : List Char), containsSub s l = true ↔ Occurs s l := by
  intro s l
  induction l with
  | nil =>
    simp only [containsSub, List.isEmpty_iff, Occurs]
    constructor
    · rintro rfl; exact ⟨[], [], rfl⟩
    · rintro ⟨a, b, hab⟩
      rcases List.append_eq_nil.mp hab.symm with ⟨-, h2⟩
      exact (List.append_eq_nil.mp h2).1
  | cons c t ih =>
    simp only [containsSub, Bool.or_eq_true, beginsWith_iff, ih]
    constructor
    · rintro (⟨r, hr⟩ | ⟨a, b, hab⟩)
      · exact ⟨[], r, hr⟩
      · exact ⟨c :: a, b, by rw [hab]; rfl⟩
    · rintro ⟨a, b, hab⟩
      cases a with
      | nil => exact Or.inl ⟨b, hab⟩
      | cons a0 a' =>
        injection hab with h1 h2
        exact Or.inr ⟨a', b, h2⟩

lemma isStart_append_cancel (a : List Char) :
    ∀ x y : List Char, IsStart (a ++ x) (a ++ y) → IsStart x y := by
  intro x y ⟨r, hr⟩
  rw [List.append_assoc] at hr
  exact ⟨r, List.append_cancel_left hr⟩

lemma isStart_stop_before (c : Char) :
    ∀ (a s b : List Char), c ∉ s → IsStart s (a ++ c :: b) → IsStart s a := by
  intro a
  induction a with
  | nil =>
    intro s b hc ⟨r, hr⟩
    cases s with
    | nil => exact ⟨[], rfl⟩
    | cons s0 s' =>
      injection hr with h1 h2
      exact absurd (h1 ▸ List.mem_cons_self s0 s') hc
  | cons x a' ih =>
    intro s b hc hs
    cases s with
    | nil => exact ⟨x :: a', rfl⟩
    | cons s0 s' =>
      obtain ⟨r, hr⟩ := hs
      injection hr with h1 h2
      have hc' : c ∉ s' := fun hm => hc (List.mem_cons_of_mem s0 hm)
      obtain ⟨q, hq⟩ := ih s' b hc' ⟨r, h2⟩
      exact ⟨q, by rw [h1, hq]; rfl⟩

lemma occurs_cons_elim {s : List Char} {x : Char} {l : List Char} :
    Occurs s (x :: l) → IsStart s (x :: l) ∨ Occurs s l := by
  rintro ⟨a, b, hab⟩
  cases a with
  | nil => exact Or.inl ⟨b, hab⟩
  | cons a0 a' =>
    injection hab with h1 h2
    exact Or.inr ⟨a', b, h2⟩

lemma occurs_of_isStart {s l : List Char} : IsStart s l → Occurs s l := by
  rintro ⟨r, hr⟩; exact ⟨[], r, hr⟩

lemma occurs_cons_of_occurs {s : List Char} (x : Char) {l : List Char} :
    Occurs s l → Occurs s (x :: l) := by
  rintro ⟨a, b, hab⟩; exact ⟨x :: a, b, by rw [hab]; rfl⟩

lemma occurs_split (c : Char) :
    ∀ (a s b : List Char), c ∉ s → Occurs s (a ++ c :: b) → Occurs s a ∨ Occurs s b := by
  intro a
  induction a with
  | nil =>
    intro s b hc h
    rcases occurs_cons_elim h with hst | ho
    · cases s with
      | nil => exact Or.inl ⟨[], [], rfl⟩
      | cons s0 s' =>
        obtain ⟨r, hr⟩ := hst
        injection hr with h1 h2
        exact absurd (h1 ▸ List.mem_cons_self s0 s') hc
    · exact Or.inr ho
  | cons x a' ih =>
    intro s b hc h
    rcases occurs_cons_elim h with hst | ho
    · have : IsStart s (x :: a') := isStart_stop_before c (x :: a') s b hc hst
      exact Or.inl (occurs_of_isStart this)
    · rcases ih s b hc ho with h1 | h2
      · exact Or.inl (occurs_cons_of_occurs x h1)
      · exact Or.inr h2

lemma mem_of_occurs {s l : List Char} {x : Char} :
    Occurs s l → x ∈ s → x ∈ l := by
  rintro ⟨a, b, rfl⟩ hx
  exact List.mem_append.mpr (Or.inr (List.mem_append.mpr (Or.inl hx)))

lemma natCharsGo_digit :
    ∀ (fuel n : Nat) (c : Char), c ∈ natCharsGo fuel n → c.isDigit = true := by
  intro fuel
  induction fuel with
  | zero => intro n c h; simp [natCharsGo] at h
  | succ fuel ih =>
    intro n c h
    by_cases hn : n < 10
    · simp only [natCharsGo, if_pos hn, List.mem_singleton] at h
      subst h
      interval_cases n <;> decide
    · simp only [natCharsGo, if_neg hn, List.mem_append, List.mem_singleton] at h
      rcases h with h | h
      · exact ih (n / 10) c h
      · subst h
        have h10 : n % 10 < 10 := Nat.mod_lt n (by norm_num)
        set m := n % 10 with hm
        interval_cases m <;> decide

lemma natChars_digit (n : Nat) (c : Char) : c ∈ natChars n → c.isDigit = true :=
  natCharsGo_digit (n + 1) n c

lemma natCharsGo_ne_nil :
    ∀ (fuel n : Nat), n < fuel → natCharsGo fuel n ≠ [] := by
  intro fuel
  induction fuel with
  | zero => intro n h; exact absurd h (Nat.not_lt_zero n)
  | succ fuel ih =>
    intro n h
    by_cases hn : n < 10
    · simp [natCharsGo, if_pos hn]
    · simp [natCharsGo, if_neg hn]

lemma natChars_ne_nil (n : Nat) : natChars n ≠ [] :=
  natCharsGo_ne_nil (n + 1) n (Nat.lt_succ_self n)

lemma natChars_small {n : Nat} (h : n < 10) : natChars n = [Nat.digitChar n] := by
  simp [natChars, natCharsGo, if_pos h]

lemma natChars_single {n : Nat} {c : Char} :
    natChars n = [c] → n < 10 ∧ c = Nat.digitChar n := by
  intro h
  by_cases hn : n < 10
  · rw [natChars_small hn] at h
    injection h with h1
    exact ⟨hn, h1.symm⟩
  · exfalso
    rw [natChars, show natCharsGo (n + 1) n =
      natCharsGo n (n / 10) ++ [Nat.digitChar (n % 10)] from by
        simp [natCharsGo, if_neg hn]] at h
    have hne2 : natCharsGo n (n / 10) ≠ [] :=
      natCharsGo_ne_nil n (n / 10) (Nat.div_lt_self (by omega) (by norm_num))
    cases hcs : natCharsGo n (n / 10) with
    | nil => exact hne2 hcs
    | cons u us =>
      rw [hcs] at h
      have := congrArg List.length h
      simp at this

lemma digitChar_inj_small :
    ∀ m < 10, ∀ n < 10, Nat.digitChar m = Nat.digitChar n → m = n := by
  decide

lemma get_token_str_cons (id : Nat) :
    get_token_str id = '<' :: ("token_".data ++ (natChars id ++ ">".data)) := rfl

lemma get_token_str_ne_nil (id : Nat) : get_token_str id ≠ [] := by
  rw [get_token_str_cons]
  exact List.cons_ne_nil _ _

lemma space_not_mem_token_str (id : Nat) : ' ' ∉ get_token_str id := by
  intro h
  rw [get_token_str] at h
  simp only [List.mem_append] at h
  rcases h with (h | h) | h
  · revert h; decide
  · exact absurd (natChars_digit id ' ' h) (by decide)
  · revert h; decide

lemma lt_char_not_mem_token_tail (id : Nat) :
    '<' ∉ ("token_".data ++ (natChars id ++ ">".data)) := by
  intro h
  simp only [List.mem_append] at h
  rcases h with h | h | h
  · revert h; decide
  · exact absurd (natChars_digit id '<' h) (by decide)
  · revert h; decide

lemma sentinel_not_isStart {sid : Nat} (hsid : sid < 10) :
    ∀ (id : Nat) (r : List Char), id ≠ sid →
      ¬ IsStart (get_token_str sid) (get_token_str id ++ r) := by
  intro id r hne hst
  rw [get_token_str, get_token_str, natChars_small hsid] at hst
  simp only [List.append_assoc] at hst
  have hst' : IsStart ([Nat.digitChar sid] ++ ">".data)
      (natChars id ++ (">".data ++ r)) :=
    isStart_append_cancel "<token_".data _ _ hst
  obtain ⟨c, rest, hnc⟩ := List.exists_cons_of_ne_nil (natChars_ne_nil id)
  cases rest with
  | nil =>
    obtain ⟨hid10, hc⟩ := natChars_single hnc
    rw [hnc] at hst'
    obtain ⟨q, hq⟩ := hst'
    injection hq with hq1 hq2
    exact hne (digitChar_inj_small id hid10 sid hsid (by rw [← hc, hq1]))
  | cons d2 rest2 =>
    rw [hnc] at hst'
    obtain ⟨q, hq⟩ := hst'
    injection hq with hq1 hq2
    injection hq2 with hq3 hq4
    have hd2 : d2 ∈ natChars id := by
      rw [hnc]; exact List.mem_cons_of_mem c (List.mem_cons_self d2 rest2)
    have := natChars_digit id d2 hd2
    rw [hq3] at this
    exact absurd this (by decide)

lemma sentinel_not_occurs_word {sid : Nat} (hsid : sid < 10) (id : Nat) (hne : id ≠ sid) :
    ¬ Occurs (get_token_str sid) (get_token_str id) := by
  intro h
  rw [get_token_str_cons id] at h
  rcases occurs_cons_elim h with hst | ho
  · apply sentinel_not_isStart hsid id [] hne
    rw [List.append_nil, get_token_str_cons id]
    exact hst
  · have hlt : '<' ∈ get_token_str sid := by
      rw [get_token_str_cons]; exact List.mem_cons_self _ _
    exact absurd (mem_of_occurs ho hlt) (lt_char_not_mem_token_tail id)

lemma not_occurs_nil {s : List Char} (hs : s ≠ []) : ¬ Occurs s [] := by
  rintro ⟨a, b, hab⟩
  rcases List.append_eq_nil.mp hab.symm with ⟨-, h2⟩
  exact hs (List.append_eq_nil.mp h2).1

lemma joinWords_one (w : List Char) : joinWords [w] = w := rfl

lemma joinWords_two (w x : List Char) (xs : List (List Char)) :
    joinWords (w :: x :: xs) = w ++ ' ' :: joinWords (x :: xs) := rfl

lemma sentinel_not_occurs_join {sid : Nat} (hsid : sid < 10) :
    ∀ ids : List Nat, (∀ id ∈ ids, id ≠ sid) →
      ¬ Occurs (get_token_str sid) (joinWords (ids.map get_token_str)) := by
  intro ids
  induction ids with
  | nil =>
    intro _ h
    exact not_occurs_nil (get_token_str_ne_nil sid) h
  | cons id rest ih =>
    intro hall h
    cases rest with
    | nil =>
      rw [List.map_cons, List.map_nil, joinWords_one] at h
      exact sentinel_not_occurs_word hsid id (hall id (List.mem_cons_self _ _)) h
    | cons id2 rest2 =>
      rw [List.map_cons, List.map_cons, joinWords_two] at h
      rcases occurs_split ' ' (get_token_str id) _ _ (space_not_mem_token_str sid) h with
        h1 | h2
      · exact sentinel_not_occurs_word hsid id (hall id (List.mem_cons_self _ _)) h1
      · rw [← List.map_cons] at h2
        exact ih (fun i hi => hall i (List.mem_cons_of_mem id hi)) h2

lemma tailJoin_cons (w : List Char) (ws : List (List Char)) :
    tailJoin (w :: ws) = ' ' :: (w ++ tailJoin ws) := by
  simp [tailJoin]

lemma tailJoin_nil : tailJoin [] = [] := rfl

lemma joinWords_cons_eq :
    ∀ (ws : List (List Char)) (w : List Char),
      joinWords (w :: ws) = w ++ tailJoin ws := by
  intro ws
  induction ws with
  | nil => intro w; rw [joinWords_one, tailJoin_nil, List.append_nil]
  | cons x xs ih =>
    intro w
    rw [joinWords_two, ih x, tailJoin_cons]

lemma wordsOf_nil : wordsOf [] = [] := rfl

lemma wordsOf_cons (t : Nat) (ts : List Nat) :
    wordsOf (t :: ts) =
      if t = 1 ∨ t = 2 then wordsOf ts else get_token_str t :: wordsOf ts := by
  by_cases h1 : t = 1
  · subst h1; simp [wordsOf, List.filter_cons]
  · by_cases h2 : t = 2
    · subst h2; simp [wordsOf, List.filter_cons]
    · simp [wordsOf, List.filter_cons, h1, h2]

lemma detokLoop_acc :
    ∀ (ts : List Nat) (text : List Char), text ≠ [] →
      detokLoop ts text = text ++ tailJoin (wordsOf ts) := by
  intro ts
  induction ts with
  | nil => intro text h; simp [detokLoop, wordsOf_nil, tailJoin_nil]
  | cons t ts ih =>
    intro text htext
    by_cases h1 : t = 1
    · subst h1
      rw [show detokLoop (1 :: ts) text = detokLoop ts text from by
        simp [detokLoop]]
      rw [ih text htext, wordsOf_cons]
      simp
    · by_cases h2 : t = 2
      · subst h2
        rw [show detokLoop (2 :: ts) text = detokLoop ts text from by
          simp [detokLoop]]
        rw [ih text htext, wordsOf_cons]
        simp
      · rw [show detokLoop (t :: ts) text =
          detokLoop ts (text ++ [' '] ++ get_token_str t) from by
            simp [detokLoop, h1, h2, htext]]
        have hne : text ++ [' '] ++ get_token_str t ≠ [] := by simp
        rw [ih _ hne, wordsOf_cons, if_neg (by tauto), tailJoin_cons]
        simp

lemma detokenize_eq_joinWords :
    ∀ tokens : List Nat, detokenize tokens = joinWords (wordsOf tokens) := by
  intro tokens
  induction tokens with
  | nil => rfl
  | cons t ts ih =>
    by_cases h1 : t = 1
    · subst h1
      rw [show detokenize (1 :: ts) = detokenize ts from by
        simp [detokenize, detokLoop]]
      rw [ih, wordsOf_cons]
      simp
    · by_cases h2 : t = 2
      · subst h2
        rw [show detokenize (2 :: ts) = detokenize ts from by
          simp [detokenize, detokLoop]]
        rw [ih, wordsOf_cons]
        simp
      · rw [show detokenize (t :: ts) = detokLoop ts (get_token_str t) from by
          simp [detokenize, detokLoop, h1, h2]]
        rw [detokLoop_acc ts (get_token_str t) (get_token_str_ne_nil t),
          wordsOf_cons, if_neg (by tauto), joinWords_cons_eq]

lemma mem_filter_good {id : Nat} {toks : List Nat}
    (h : id ∈ toks.filter (fun t => !(t = 1 || t = 2))) : id ≠ 1 ∧ id ≠ 2 := by
  have := (List.mem_filter.mp h).2
  simp at this
  exact this

/-- Claim C7: on every tokenize output, detokenize equals the join of the
string forms of the non-sentinel tokens with exactly one space between
consecutive words and no leading or trailing space (`joinWords`), and the
non-sentinel tokens of a tokenize output are exactly its word tokens: the
prepended BEGIN and appended END markers are dropped. -/
theorem detokenize_single_space_join :
    ∀ (hash : List Char → Nat) (vocab_size : Nat) (text : List Char),
      detokenize (tokenize hash vocab_size text) =
        joinWords (wordsOf (tokenize hash vocab_size text)) ∧
      wordsOf (tokenize hash vocab_size text) =
        ((tokenizeWords hash vocab_size text []).filter
          (fun t => !(t = 1 || t = 2))).map get_token_str := by
  intro hash vocab_size text
  refine ⟨detokenize_eq_joinWords _, ?_⟩
  rw [tokenize]
  simp [wordsOf, List.filter_cons, List.filter_append]

/-- Claim C10: detokenize drops every occurrence of the sentinel ids 1 and
2 at any position (its output is the join of the remaining tokens' string
forms), and consequently the string returned by generate never contains
the string form of either sentinel token as a substring. -/
theorem detokenize_skips_all_sentinels :
    (∀ tokens : List Nat, detokenize tokens = joinWords (wordsOf tokens)) ∧
    (∀ (engine : LlamaLex) (hash : List Char → Nat) (randStream : Nat → Nat)
        (prompt : List Char) (max_length : Nat),
      containsSub (get_token_str 1)
        (engine.generate hash randStream prompt max_length) = false ∧
      containsSub (get_token_str 2)
        (engine.generate hash randStream prompt max_length) = false) := by
  refine ⟨detokenize_eq_joinWords, ?_⟩
  intro engine hash randStream prompt max_length
  constructor
  · rw [Bool.eq_false_iff]
    intro hcs
    rw [containsSub_iff, LlamaLex.generate, detokenize_eq_joinWords, wordsOf] at hcs
    exact sentinel_not_occurs_join (by norm_num) _
      (fun id hid => (mem_filter_good hid).1) hcs
  · rw [Bool.eq_false_iff]
    intro hcs
    rw [containsSub_iff, LlamaLex.generate, detokenize_eq_joinWords, wordsOf] at hcs
    exact sentinel_not_occurs_join (by norm_num) _
      (fun id hid => (mem_filter_good hid).2) hcs

end LlamaLexModel
